import Mathlib

/-!
# Verification of `src/lib/gosu-process-name.js`

Shallow embedding of the Windows process-name listing utility built on the
native calls `EnumProcesses`, `OpenProcess`, `EnumProcessModules` and
`K32GetModuleBaseNameA` (bound through `ffi`/`ref` in the source).

The operating system is modelled as an oracle `OS` providing the four
capabilities the source binds.  DWORD process identifiers and process/module
handles are modelled as `Nat`; the ANSI base name that
`K32GetModuleBaseNameA` would copy is modelled as a `String` (one byte per
character).  The unbounded `do/while` capacity-probing loop of
`getProcessIDList` is modelled with explicit fuel: a `none` result means the
loop is still running after `fuel` iterations of its body.
-/

set_option autoImplicit false

/-- Oracle for the four native OS capabilities used by the source.

* `enumProcesses n` is the observable effect of
  `EnumProcesses(aProcesses, DWord.size * n, cbNeeded)` on a buffer of
  capacity `n` entries: the buffer contents together with
  `cbNeeded.deref() / DWord.size`, the entry count the OS reports.
* `openProcess pid` is `OpenProcess(PROCESS_QUERY_INFORMATION |
  PROCESS_VM_READ, 0, pid)`: `some` handle on success, `none` when the call
  yields a NULL handle.
* `enumProcessModules h` is `EnumProcessModules(h, hMod, sizeof pointer,
  cbNeeded)` asking for a single module: `some` first module on success,
  `none` when the call reports failure.
* `moduleBaseName h m` is the full base name that
  `K32GetModuleBaseNameA(h, m, ...)` would produce before truncation to the
  caller's buffer. -/
structure OS where
  enumProcesses : Nat → List Nat × Nat
  openProcess : Nat → Option Nat
  enumProcessModules : Nat → Option Nat
  moduleBaseName : Nat → Nat → String

/-- `const QUERY_SIZE = 2048` (line 21 of the source). -/
def QUERY_SIZE : Nat := 2048

/-- `const MAX_PROCESS_NAME_LENGTH = 32` (line 22 of the source). -/
def MAX_PROCESS_NAME_LENGTH : Nat := 32

/-- `_retrieveNProcesses(n)`: one `EnumProcesses` call with an `n`-entry
buffer; returns `[aProcesses, cbNeeded.deref() / DWord.size]`. -/
def retrieveNProcesses (os : OS) (n : Nat) : List Nat × Nat :=
  os.enumProcesses n

/-- The `do { expectedProcessNum *= 2; [aProcesses, processNum] =
_retrieveNProcesses(expectedProcessNum); } while (processNum ===
expectedProcessNum)` loop of `getProcessIDList`, followed by the
truncation `aProcesses.length = processNum`, with explicit fuel.
`expected` is `expectedProcessNum` before the doubling at the top of the
body; `calls` counts the `EnumProcesses` calls already made.  Returns the
truncated buffer paired with the total number of `EnumProcesses` calls, or
`none` when the fuel runs out with the loop still going. -/
def enumLoopGo (os : OS) : Nat → Nat → Nat → Option (List Nat × Nat)
  | _, _, 0 => none
  | expected, calls, fuel + 1 =>
    if (retrieveNProcesses os (expected * 2)).2 = expected * 2 then
      enumLoopGo os (expected * 2) (calls + 1) fuel
    else
      some ((retrieveNProcesses os (expected * 2)).1.take
              (retrieveNProcesses os (expected * 2)).2,
            calls + 1)

/-- `getProcessIDList()` with fuel: `expectedProcessNum` starts at
`QUERY_SIZE / 2` and the doubling loop runs until the OS reports fewer
entries than requested.  `none` when the loop has not terminated within
`fuel` iterations. -/
def getProcessIDListFuel (os : OS) (fuel : Nat) : Option (List Nat) :=
  (enumLoopGo os (QUERY_SIZE / 2) 0 fuel).map Prod.fst

/-- Effect of `K32GetModuleBaseNameA(hProcess, hMod, theStringBuffer,
theStringBuffer.length)` on the zero-filled buffer of
`MAX_PROCESS_NAME_LENGTH` bytes, followed by
`ref.readCString(theStringBuffer, 0)`: the API copies at most
`MAX_PROCESS_NAME_LENGTH - 1` characters of the base name plus a
terminating NUL (longer names are truncated), and `readCString` decodes the
bytes up to the first NUL. -/
def readCString32 (name : String) : String :=
  ⟨name.data.take (MAX_PROCESS_NAME_LENGTH - 1)⟩

/-- `getProcessName(pid)`: `OpenProcess` with `PROCESS_QUERY_INFORMATION |
PROCESS_VM_READ`; on a non-NULL handle, a single `EnumProcessModules` call
asking for one module (the first module is the executable itself); on
success, `K32GetModuleBaseNameA` into the fixed 32-byte buffer.  Both
failure branches fall through, returning JavaScript `undefined`, modelled
as `none`. -/
def getProcessName (os : OS) (pid : Nat) : Option String :=
  match os.openProcess pid with
  | none => none
  | some hProcess =>
    match os.enumProcessModules hProcess with
    | none => none
    | some hMod => some (readCString32 (os.moduleBaseName hProcess hMod))

/-- Fixture oracle following the spec's example scenario: the enumeration
reports identifiers `[10, 20, 30]`; `10` resolves to `"alpha.exe"`, `20` is
unopenable, `30` resolves to `"beta.exe"`. -/
def osX : OS :=
  { enumProcesses := fun _ => ([10, 20, 30], 3)
    openProcess := fun pid => if pid = 10 then some 1 else if pid = 30 then some 3 else none
    enumProcessModules := fun h => if h = 1 then some 11 else if h = 3 then some 33 else none
    moduleBaseName := fun h _ => if h = 1 then "alpha.exe" else "beta.exe" }

example : getProcessIDListFuel osX 1 = some [10, 20, 30] := by rfl
example : getProcessName osX 10 = some "alpha.exe" := by rfl
example : getProcessName osX 20 = none := by rfl
example : getProcessName osX 30 = some "beta.exe" := by rfl

/-- Oracle on the first `k` capacity probes: the buffer came back exactly
full, `returned == requested`.  The capacities probed by the loop are
`expected * 2 ^ (i + 1)` for `i = 0, 1, ...` (the body doubles before
calling). -/
lemma enumLoopGo_probe (os : OS) :
    ∀ (k expected calls fuel : Nat), k + 1 ≤ fuel →
    (∀ i, i < k →
      (os.enumProcesses (expected * 2 ^ (i + 1))).2 = expected * 2 ^ (i + 1)) →
    (os.enumProcesses (expected * 2 ^ (k + 1))).2 ≠ expected * 2 ^ (k + 1) →
    enumLoopGo os expected calls fuel =
      some ((os.enumProcesses (expected * 2 ^ (k + 1))).1.take
              (os.enumProcesses (expected * 2 ^ (k + 1))).2,
            calls + (k + 1)) := by
  intro k
  induction k with
  | zero =>
    intro expected calls fuel hfuel hfull hless
    obtain ⟨f, rfl⟩ : ∃ f, fuel = f + 1 := ⟨fuel - 1, by omega⟩
    have h2 : expected * 2 ^ (0 + 1) = expected * 2 := by ring
    rw [h2] at hless ⊢
    simp only [enumLoopGo, retrieveNProcesses]
    rw [if_neg hless]
  | succ k ih =>
    intro expected calls fuel hfuel hfull hless
    obtain ⟨f, rfl⟩ : ∃ f, fuel = f + 1 := ⟨fuel - 1, by omega⟩
    have h0 : (os.enumProcesses (expected * 2)).2 = expected * 2 := by
      have h := hfull 0 (by omega)
      rw [show expected * 2 ^ (0 + 1) = expected * 2 by ring] at h
      exact h
    have hcap : ∀ j : Nat, expected * 2 * 2 ^ (j + 1) = expected * 2 ^ (j + 1 + 1) := by
      intro j; ring
    simp only [enumLoopGo, retrieveNProcesses]
    rw [if_pos h0]
    have hfull2 : ∀ i, i < k →
        (os.enumProcesses (expected * 2 * 2 ^ (i + 1))).2 = expected * 2 * 2 ^ (i + 1) := by
      intro i hi
      rw [hcap i]
      exact hfull (i + 1) (by omega)
    have hless2 :
        (os.enumProcesses (expected * 2 * 2 ^ (k + 1))).2 ≠ expected * 2 * 2 ^ (k + 1) := by
      rw [hcap k]; exact hless
    rw [ih (expected * 2) (calls + 1) f (by omega) hfull2 hless2]
    rw [hcap k]
    have : calls + 1 + (k + 1) = calls + (k + 1 + 1) := by omega
    rw [this]

/-- C1: `getProcessIDList` probes capacities `QUERY_SIZE / 2 * 2,
QUERY_SIZE / 2 * 4, ...`, doubling whenever the OS reports exactly the
requested count; if the oracle reports `returned == requested` for the
first `k` capacities and `returned < requested` on the next, the function
performs exactly `k + 1` `EnumProcesses` calls and returns the first
`returned` entries of that last buffer, in the OS-provided order. -/
theorem getProcessIDList_capacity_probe (os : OS) (k fuel : Nat)
    (hfull : ∀ i, i < k →
      (os.enumProcesses (QUERY_SIZE / 2 * 2 ^ (i + 1))).2 = QUERY_SIZE / 2 * 2 ^ (i + 1))
    (hless : (os.enumProcesses (QUERY_SIZE / 2 * 2 ^ (k + 1))).2 <
      QUERY_SIZE / 2 * 2 ^ (k + 1))
    (hfuel : k + 1 ≤ fuel) :
    enumLoopGo os (QUERY_SIZE / 2) 0 fuel =
      some ((os.enumProcesses (QUERY_SIZE / 2 * 2 ^ (k + 1))).1.take
              (os.enumProcesses (QUERY_SIZE / 2 * 2 ^ (k + 1))).2,
            k + 1) ∧
    getProcessIDListFuel os fuel =
      some ((os.enumProcesses (QUERY_SIZE / 2 * 2 ^ (k + 1))).1.take
              (os.enumProcesses (QUERY_SIZE / 2 * 2 ^ (k + 1))).2) := by
  have h := enumLoopGo_probe os k (QUERY_SIZE / 2) 0 fuel hfuel hfull (Nat.ne_of_lt hless)
  rw [Nat.zero_add] at h
  exact ⟨h, by rw [getProcessIDListFuel, h]; rfl⟩

/-- Oracle reporting a full buffer on the first two probed capacities
(`2048` and `4096`) and three entries on the third (`8192`). -/
def osW : OS :=
  { enumProcesses := fun c => if c = 2048 ∨ c = 4096 then ([], c) else ([10, 20, 30], 3)
    openProcess := fun _ => none
    enumProcessModules := fun _ => none
    moduleBaseName := fun _ _ => "" }

/-- Witness for C1: on `osW` the enumerator makes exactly `2 + 1 = 3` calls
and returns the three identifiers of the third buffer. -/
theorem getProcessIDList_capacity_probe_w :
    enumLoopGo osW (QUERY_SIZE / 2) 0 5 = some ([10, 20, 30], 3) ∧
    getProcessIDListFuel osW 5 = some [10, 20, 30] := by
  have h := getProcessIDList_capacity_probe osW 2 5 (by decide) (by decide) (by decide)
  exact ⟨h.1.trans (by decide), h.2.trans (by decide)⟩

/-- If the oracle reports a full buffer on every one of the first `fuel`
probed capacities, the loop is still running when the fuel runs out. -/
lemma enumLoopGo_runs (os : OS) :
    ∀ (fuel expected calls : Nat),
    (∀ i, i < fuel →
      (os.enumProcesses (expected * 2 ^ (i + 1))).2 = expected * 2 ^ (i + 1)) →
    enumLoopGo os expected calls fuel = none := by
  intro fuel
  induction fuel with
  | zero => intro expected calls _; rfl
  | succ f ih =>
    intro expected calls hfull
    have h0 : (os.enumProcesses (expected * 2)).2 = expected * 2 := by
      have h := hfull 0 (by omega)
      rw [show expected * 2 ^ (0 + 1) = expected * 2 by ring] at h
      exact h
    simp only [enumLoopGo, retrieveNProcesses]
    rw [if_pos h0]
    refine ih (expected * 2) (calls + 1) ?_
    intro i hi
    rw [show expected * 2 * 2 ^ (i + 1) = expected * 2 ^ (i + 1 + 1) by ring]
    exact hfull (i + 1) (by omega)

/-- C6 (amended): the capacity-probing loop has no retry or memory bound
and never surfaces an error: whenever the OS keeps reporting
`returned == requested`, the loop keeps doubling, and after any number
`fuel` of calls it is still running (`none`), with no error value ever
produced — the source's result channel has no error constructor at all. -/
theorem getProcessIDList_no_growth_bound (os : OS) (fuel : Nat)
    (hfull : ∀ i, i < fuel →
      (os.enumProcesses (QUERY_SIZE / 2 * 2 ^ (i + 1))).2 = QUERY_SIZE / 2 * 2 ^ (i + 1)) :
    getProcessIDListFuel os fuel = none := by
  rw [getProcessIDListFuel, enumLoopGo_runs os fuel (QUERY_SIZE / 2) 0 hfull]
  rfl

/-- Oracle whose `EnumProcesses` always claims the buffer came back exactly
full, whatever the requested capacity. -/
def fullOracle : OS :=
  { enumProcesses := fun c => ([], c)
    openProcess := fun _ => none
    enumProcessModules := fun _ => none
    moduleBaseName := fun _ _ => "" }

/-- Witness for the amended C6: with the always-full oracle the loop has
not terminated (and has raised no error) after five calls. -/
theorem getProcessIDList_no_growth_bound_w :
    getProcessIDListFuel fullOracle 5 = none :=
  getProcessIDList_no_growth_bound fullOracle 5 (fun _ _ => rfl)

/-- The boundedness the claim asserts: some global bound `B` of
`EnumProcesses` calls within which `getProcessIDList` always finishes, for
every oracle.  (The source has no error result to surface, so finishing
within the bound is the only outcome compatible with the claim.) -/
def probingLoopBounded : Prop :=
  ∃ B : Nat, ∀ os : OS, getProcessIDListFuel os B ≠ none

/-- C6 counterexample: no bound exists — the always-full oracle keeps the
loop running past any bound, and no fatal enumeration error is surfaced. -/
theorem getProcessIDList_not_bounded : ¬ probingLoopBounded := by
  rintro ⟨B, hB⟩
  exact hB fullOracle (by
    rw [getProcessIDListFuel, enumLoopGo_runs fullOracle B (QUERY_SIZE / 2) 0 (fun _ _ => rfl)]
    rfl)

/-- C4: `getProcessName` turns both failure modes into absence
(JavaScript `undefined`, modelled `none`) rather than raising: a NULL
handle from `OpenProcess`, and a failing `EnumProcessModules` on a good
handle.  (The embedding is a total function into `Option String`; there is
no exceptional result.) -/
theorem getProcessName_absent_on_failure (os : OS) (pid : Nat) :
    (os.openProcess pid = none → getProcessName os pid = none) ∧
    (∀ h, os.openProcess pid = some h → os.enumProcessModules h = none →
      getProcessName os pid = none) := by
  constructor
  · intro h1
    simp [getProcessName, h1]
  · intro h h1 h2
    simp [getProcessName, h1, h2]

/-- Oracle on which the only process is openable but its module list is
not retrievable. -/
def osY : OS :=
  { enumProcesses := fun _ => ([1], 1)
    openProcess := fun _ => some 5
    enumProcessModules := fun _ => none
    moduleBaseName := fun _ _ => "gamma.exe" }

/-- Witness for C4: absence on an open failure (`osX`, pid `20`) and on a
module-list failure (`osY`, pid `1`). -/
theorem getProcessName_absent_on_failure_w :
    getProcessName osX 20 = none ∧ getProcessName osY 1 = none :=
  ⟨(getProcessName_absent_on_failure osX 20).1 rfl,
   (getProcessName_absent_on_failure osY 1).2 5 rfl rfl⟩

/-- C7: when resolution succeeds, the returned name is the base name
truncated to the fixed `MAX_PROCESS_NAME_LENGTH`-byte buffer: at most
`MAX_PROCESS_NAME_LENGTH - 1 = 31` characters survive, and an over-long
base name still yields a (truncated) name, never a failure or absence. -/
theorem getProcessName_truncates (os : OS) (pid hProcess hMod : Nat)
    (h1 : os.openProcess pid = some hProcess)
    (h2 : os.enumProcessModules hProcess = some hMod) :
    getProcessName os pid = some (readCString32 (os.moduleBaseName hProcess hMod)) ∧
    (∀ name, getProcessName os pid = some name →
      name.length ≤ MAX_PROCESS_NAME_LENGTH - 1) := by
  have hres : getProcessName os pid =
      some (readCString32 (os.moduleBaseName hProcess hMod)) := by
    simp [getProcessName, h1, h2]
  refine ⟨hres, ?_⟩
  intro name hname
  rw [hres] at hname
  obtain rfl : readCString32 (os.moduleBaseName hProcess hMod) = name :=
    Option.some_injective _ hname
  show ((os.moduleBaseName hProcess hMod).data.take (MAX_PROCESS_NAME_LENGTH - 1)).length ≤
    MAX_PROCESS_NAME_LENGTH - 1
  rw [List.length_take]
  omega

/-- Oracle whose only process carries a 40-character base name. -/
def osL : OS :=
  { enumProcesses := fun _ => ([1], 1)
    openProcess := fun _ => some 2
    enumProcessModules := fun _ => some 3
    moduleBaseName := fun _ _ => "aaaaaaaaaabbbbbbbbbbccccccccccdddddddddd" }

/-- Witness for C7: the 40-character base name comes back silently cut to
its first 31 characters. -/
theorem getProcessName_truncates_w :
    getProcessName osL 1 = some "aaaaaaaaaabbbbbbbbbbccccccccccd" := by
  have h := (getProcessName_truncates osL 1 2 3 rfl rfl).1
  exact h.trans (by rfl)

/-- `getProcessName` with the table of open process handles threaded
through, to observe handle lifecycle.  A successful `OpenProcess` appends
the returned handle to the table.  No branch removes a handle, because the
source never calls `CloseHandle` — the `kernel32` binding does not even
declare it. -/
def getProcessNameHandles (os : OS) (handles : List Nat) (pid : Nat) :
    Option String × List Nat :=
  match os.openProcess pid with
  | none => (none, handles)
  | some hProcess =>
    match os.enumProcessModules hProcess with
    | none => (none, handles ++ [hProcess])
    | some hMod =>
      (some (readCString32 (os.moduleBaseName hProcess hMod)), handles ++ [hProcess])

/-- The handle-instrumented resolver returns the same name as the plain
embedding. -/
lemma getProcessNameHandles_fst (os : OS) (handles : List Nat) (pid : Nat) :
    (getProcessNameHandles os handles pid).1 = getProcessName os pid := by
  cases h1 : os.openProcess pid with
  | none => simp [getProcessNameHandles, getProcessName, h1]
  | some hProcess =>
    cases h2 : os.enumProcessModules hProcess with
    | none => simp [getProcessNameHandles, getProcessName, h1, h2]
    | some hMod => simp [getProcessNameHandles, getProcessName, h1, h2]

/-- C5 is wrong about the code: starting from an empty handle table, a
successful resolution (`osX`, pid `10`) and a module-list-failure
resolution (`osY`, pid `1`) both finish with the `OpenProcess` handle
still open — the source has no `CloseHandle` on any path, so the set of
open handles after the call differs from the set before it. -/
theorem getProcessName_leaks_handle :
    (getProcessNameHandles osX [] 10).1 = getProcessName osX 10 ∧
    (getProcessNameHandles osX [] 10).2 = [1] ∧
    (getProcessNameHandles osY [] 1).2 = [5] :=
  ⟨getProcessNameHandles_fst osX [] 10, rfl, rfl⟩

/-- The names yielded by one run of the `processNameIterator()` generator
body over the identifier list `ids`: resolve each identifier in order and
`yield name` only under `if (name)` — JavaScript truthiness, under which
both `undefined` and the empty string are skipped. -/
def iterGo (os : OS) : List Nat → List String
  | [] => []
  | pid :: rest =>
    match getProcessName os pid with
    | some name => if name != "" then name :: iterGo os rest else iterGo os rest
    | none => iterGo os rest

/-- `processNameIterator()` materialized: one enumeration pass, then the
generator body over the resulting identifiers.  `none` when the
enumeration loop exhausts its fuel. -/
def processNameIteratorFuel (os : OS) (fuel : Nat) : Option (List String) :=
  (getProcessIDListFuel os fuel).map (iterGo os)

/-- Resolution produced a truthy name: present and non-empty. -/
def resolvesNonempty (os : OS) (pid : Nat) : Bool :=
  match getProcessName os pid with
  | some name => name != ""
  | none => false

/-- The generator's yields are the resolved names of exactly the
identifiers whose resolution is present and non-empty, in enumeration
order. -/
lemma iterGo_eq (os : OS) : ∀ ids : List Nat,
    iterGo os ids =
      (ids.filter (resolvesNonempty os)).map (fun pid => (getProcessName os pid).getD "") := by
  intro ids
  induction ids with
  | nil => rfl
  | cons pid rest ih =>
    rw [iterGo]
    cases hres : getProcessName os pid with
    | none =>
      rw [List.filter_cons]
      rw [show resolvesNonempty os pid = false by rw [resolvesNonempty, hres]]
      simpa using ih
    | some name =>
      rw [List.filter_cons]
      rw [show resolvesNonempty os pid = (name != "") by rw [resolvesNonempty, hres]]
      cases hne : (name != "") with
      | false => simpa [hne] using ih
      | true => simp [hne, hres, ih]

/-- C2 (amended): the iterator yields exactly the names of the identifiers
whose resolution is present *and non-empty* (a resolution yielding `""` is
dropped by JavaScript truthiness exactly like an absent one), in
enumeration order; in particular the yielded sequence is never longer than
the identifier list. -/
theorem processNameIterator_yields (os : OS) (ids : List Nat) (fuel : Nat)
    (h : getProcessIDListFuel os fuel = some ids) :
    processNameIteratorFuel os fuel =
      some ((ids.filter (resolvesNonempty os)).map
              (fun pid => (getProcessName os pid).getD "")) ∧
    (iterGo os ids).length = (ids.filter (resolvesNonempty os)).length ∧
    (iterGo os ids).length ≤ ids.length := by
  refine ⟨?_, ?_, ?_⟩
  · simp only [processNameIteratorFuel, h, Option.map_some', iterGo_eq]
  · rw [iterGo_eq, List.length_map]
  · rw [iterGo_eq, List.length_map]
    exact List.length_filter_le _ _

/-- Witness for the amended C2: on the spec's example fixture the iterator
yields the two resolvable names in enumeration order, dropping the
unopenable identifier `20`. -/
theorem processNameIterator_yields_w :
    processNameIteratorFuel osX 1 = some ["alpha.exe", "beta.exe"] := by
  have h := (processNameIterator_yields osX [10, 20, 30] 1 (by rfl)).1
  exact h.trans (by rfl)

/-- Oracle whose only identifier resolves successfully — but to the empty
string (`EnumProcessModules` succeeds and `K32GetModuleBaseNameA` writes
nothing into the zero-filled buffer). -/
def osE : OS :=
  { enumProcesses := fun _ => ([1], 1)
    openProcess := fun _ => some 5
    enumProcessModules := fun _ => some 9
    moduleBaseName := fun _ _ => "" }

/-- C2 counterexample: an enumeration pass with `N = 1` identifier of which
`M = 1` resolves to a present name, yet the iterator yields `0 ≠ M` names:
the present-but-empty name is dropped by the `if (name)` truthiness test. -/
theorem processNameIterator_drops_present_empty :
    getProcessIDListFuel osE 1 = some [1] ∧
    getProcessName osE 1 = some "" ∧
    (([1] : List Nat).filter (fun pid => (getProcessName osE pid).isSome)).length = 1 ∧
    processNameIteratorFuel osE 1 = some [] :=
  ⟨rfl, rfl, rfl, rfl⟩

/-- `pid`'s resolution would be yielded by the generator and the yielded
name is `=== target`. -/
def yieldsTarget (os : OS) (target : String) (pid : Nat) : Bool :=
  match getProcessName os pid with
  | some name => name != "" && name == target
  | none => false

/-- The `for (let runningProcessName of processNameIterator())` loop of
`checkProcessIsRunning(processName)` driving the generator over `ids`:
resolve each identifier in turn, compare each yielded name with `===`,
return `true` on the first match, `false` when the sequence is
exhausted. -/
def checkGo (os : OS) (target : String) : List Nat → Bool
  | [] => false
  | pid :: rest =>
    match getProcessName os pid with
    | some name => if name != "" && name == target then true else checkGo os target rest
    | none => checkGo os target rest

/-- `checkProcessIsRunning(processName)` with enumeration fuel. -/
def checkProcessIsRunningFuel (os : OS) (target : String) (fuel : Nat) : Option Bool :=
  (getProcessIDListFuel os fuel).map (checkGo os target)

/-- Operational run of the `checkProcessIsRunning` loop recording, in
order, the identifiers passed to the resolver (`getProcessName`): the
generator is suspended permanently as soon as a yielded name matches, so
no identifier after the match is ever resolved. -/
def checkRun (os : OS) (target : String) : List Nat → Bool × List Nat
  | [] => (false, [])
  | pid :: rest =>
    if yieldsTarget os target pid then (true, [pid])
    else ((checkRun os target rest).1, pid :: (checkRun os target rest).2)

/-- The membership loop computes exactly containment in the yielded
sequence. -/
lemma checkGo_eq_contains (os : OS) (target : String) :
    ∀ ids : List Nat, checkGo os target ids = (iterGo os ids).contains target := by
  intro ids
  induction ids with
  | nil => rfl
  | cons pid rest ih =>
    rw [checkGo, iterGo]
    cases hres : getProcessName os pid with
    | none => exact ih
    | some name =>
      cases hne : (name != "") with
      | false => simpa [hne] using ih
      | true =>
        cases heq : (name == target) with
        | false =>
          have hne2 : target ≠ name := by
            intro hcontr; subst hcontr; simp at heq
          simpa [hne, heq, List.contains_cons, hne2] using ih
        | true =>
          have heq2 : target = name := (eq_of_beq heq).symm
          simp [hne, heq, List.contains_cons, heq2]

/-- The instrumented run returns the same boolean as the loop embedding. -/
lemma checkRun_fst (os : OS) (target : String) :
    ∀ ids : List Nat, (checkRun os target ids).1 = checkGo os target ids := by
  intro ids
  induction ids with
  | nil => rfl
  | cons pid rest ih =>
    rw [checkRun, checkGo, yieldsTarget]
    cases hres : getProcessName os pid with
    | none => simpa using ih
    | some name =>
      cases hc : (name != "" && name == target) with
      | false => simpa [hc] using ih
      | true => simp [hc]

/-- The resolved identifiers are the prefix of the enumeration up to and
including the first matching one — the whole list when no identifier
matches. -/
lemma checkRun_resolved (os : OS) (target : String) :
    ∀ ids : List Nat,
    (checkRun os target ids).2 =
      (match List.findIdx? (yieldsTarget os target) ids with
       | some i => ids.take (i + 1)
       | none => ids) := by
  intro ids
  induction ids with
  | nil => rfl
  | cons pid rest ih =>
    rw [checkRun, List.findIdx?_cons]
    cases hy : yieldsTarget os target pid with
    | true => simp [hy]
    | false =>
      rw [if_neg (by simp [hy])]
      simp only [hy, cond_false, ih]
      cases hf : List.findIdx? (yieldsTarget os target) rest with
      | none => simp [hf]
      | some i => simp [hf, List.take_succ_cons]

/-- C3: `checkProcessIsRunning(name)` returns `true` exactly when the
yielded name sequence contains an element `===`-equal to `name` (`false`
once the sequence is exhausted unmatched), and the run resolves precisely
the identifiers up to and including the first match — none after it. -/
theorem checkProcessIsRunning_spec (os : OS) (target : String) (ids : List Nat) (fuel : Nat)
    (h : getProcessIDListFuel os fuel = some ids) :
    checkProcessIsRunningFuel os target fuel = some ((iterGo os ids).contains target) ∧
    (checkRun os target ids).1 = checkGo os target ids ∧
    (checkRun os target ids).2 =
      (match List.findIdx? (yieldsTarget os target) ids with
       | some i => ids.take (i + 1)
       | none => ids) :=
  ⟨by simp only [checkProcessIsRunningFuel, h, Option.map_some', checkGo_eq_contains],
   checkRun_fst os target ids,
   checkRun_resolved os target ids⟩

/-- Witness for C3 on the spec's example fixture: `"beta.exe"` is found,
and every identifier up to and including the matching `30` was resolved
(`20`, which resolves to nothing, is still resolved before the match). -/
theorem checkProcessIsRunning_spec_w :
    checkProcessIsRunningFuel osX "beta.exe" 1 = some true ∧
    (checkRun osX "beta.exe" [10, 20, 30]).2 = [10, 20, 30] ∧
    checkProcessIsRunningFuel osX "delta.exe" 1 = some false := by
  have h1 := checkProcessIsRunning_spec osX "beta.exe" [10, 20, 30] 1 (by rfl)
  have h2 := checkProcessIsRunning_spec osX "delta.exe" [10, 20, 30] 1 (by rfl)
  refine ⟨h1.1.trans (by rfl), ?_, h2.1.trans (by rfl)⟩
  rw [h1.2.2]
  rfl

/-- One resumption of the suspended `processNameIterator` generator: run
the loop from the pending identifiers until the next `yield` or until the
function returns.  `some (name, rest)` is a yield with `rest` still
pending; `none` means the generator is done. -/
def iterNextGo (os : OS) : List Nat → Option (String × List Nat)
  | [] => none
  | pid :: rest =>
    match getProcessName os pid with
    | some name => if name != "" then some (name, rest) else iterNextGo os rest
    | none => iterNextGo os rest

/-- Every yield strictly shrinks the pending identifier list. -/
lemma iterNextGo_shrinks (os : OS) :
    ∀ (ids rest : List Nat) (name : String),
    iterNextGo os ids = some (name, rest) → rest.length < ids.length := by
  intro ids
  induction ids with
  | nil => intro rest name h; exact absurd h (by simp [iterNextGo])
  | cons pid tl ih =>
    intro rest name h
    rw [iterNextGo] at h
    cases hres : getProcessName os pid with
    | none =>
      rw [hres] at h
      exact Nat.lt_trans (ih rest name h) (Nat.lt_succ_self _)
    | some nm =>
      rw [hres] at h
      have h' : (if (nm != "") = true then some (nm, tl) else iterNextGo os tl) =
          some (name, rest) := h
      by_cases hne : (nm != "") = true
      · rw [if_pos hne] at h'
        have h3 : nm = name ∧ tl = rest := by simpa using h'
        rw [← h3.2]
        exact Nat.lt_succ_self _
      · rw [if_neg hne] at h'
        exact Nat.lt_trans (ih rest name h') (Nat.lt_succ_self _)

set_option linter.unusedVariables false in
/-- The spread `[...processNameIterator()]` in `getProcessNameList`,
following the spec's words: repeatedly pull the iterator and collect every
yielded name until it reports exhaustion. -/
def drainFrom (os : OS) (ids : List Nat) : List String :=
  match h : iterNextGo os ids with
  | none => []
  | some (name, rest) => name :: drainFrom os rest
termination_by ids.length
decreasing_by exact iterNextGo_shrinks os ids rest name h

/-- `getProcessNameList()`: the eager list produced by draining the
iterator, after one enumeration pass. -/
def getProcessNameListFuel (os : OS) (fuel : Nat) : Option (List String) :=
  (getProcessIDListFuel os fuel).map (drainFrom os)

/-- A finished generator yields nothing. -/
lemma iterGo_of_iterNextGo_none (os : OS) :
    ∀ ids : List Nat, iterNextGo os ids = none → iterGo os ids = [] := by
  intro ids
  induction ids with
  | nil => intro _; rfl
  | cons pid tl ih =>
    intro h
    rw [iterNextGo] at h
    rw [iterGo]
    cases hres : getProcessName os pid with
    | none =>
      rw [hres] at h
      exact ih h
    | some nm =>
      rw [hres] at h
      have h' : (if (nm != "") = true then some (nm, tl) else iterNextGo os tl) = none := h
      show (if (nm != "") = true then nm :: iterGo os tl else iterGo os tl) = []
      by_cases hne : (nm != "") = true
      · rw [if_pos hne] at h'
        exact absurd h' (by simp)
      · rw [if_neg hne] at h'
        rw [if_neg hne]
        exact ih h'

/-- A yield peels exactly one name off the generator's sequence. -/
lemma iterGo_of_iterNextGo_some (os : OS) :
    ∀ (ids rest : List Nat) (name : String),
    iterNextGo os ids = some (name, rest) →
    iterGo os ids = name :: iterGo os rest := by
  intro ids
  induction ids with
  | nil => intro rest name h; exact absurd h (by simp [iterNextGo])
  | cons pid tl ih =>
    intro rest name h
    rw [iterNextGo] at h
    rw [iterGo]
    cases hres : getProcessName os pid with
    | none =>
      rw [hres] at h
      exact ih rest name h
    | some nm =>
      rw [hres] at h
      have h' : (if (nm != "") = true then some (nm, tl) else iterNextGo os tl) =
          some (name, rest) := h
      show (if (nm != "") = true then nm :: iterGo os tl else iterGo os tl) =
        name :: iterGo os rest
      by_cases hne : (nm != "") = true
      · rw [if_pos hne] at h'
        have h3 : nm = name ∧ tl = rest := by simpa using h'
        rw [if_pos hne, h3.1, h3.2]
      · rw [if_neg hne] at h'
        rw [if_neg hne]
        exact ih rest name h'

/-- Draining the pull-based iterator produces the generator's yield
sequence. -/
lemma drainFrom_eq_iterGo (os : OS) :
    ∀ (n : Nat) (ids : List Nat), ids.length ≤ n → drainFrom os ids = iterGo os ids := by
  intro n
  induction n with
  | zero =>
    intro ids hlen
    obtain rfl : ids = [] := List.length_eq_zero.mp (Nat.le_zero.mp hlen)
    rw [drainFrom]
    split
    · rfl
    · next name rest h => exact absurd h (by simp [iterNextGo])
  | succ n ih =>
    intro ids hlen
    rw [drainFrom]
    split
    · next h => exact (iterGo_of_iterNextGo_none os ids h).symm
    · next name rest h =>
      rw [iterGo_of_iterNextGo_some os ids rest name h]
      have hr : rest.length < ids.length := iterNextGo_shrinks os ids rest name h
      rw [ih rest (by omega)]

/-- C8: `getProcessNameList()` equals the materialization of
`processNameIterator()` — same elements, same order — for every oracle and
every fuel (both propagate a still-running enumeration as `none`). -/
theorem getProcessNameList_materializes (os : OS) (fuel : Nat) :
    getProcessNameListFuel os fuel = processNameIteratorFuel os fuel := by
  rw [getProcessNameListFuel, processNameIteratorFuel]
  cases h : getProcessIDListFuel os fuel with
  | none => rfl
  | some ids =>
    simp only [Option.map_some']
    rw [drainFrom_eq_iterGo os ids.length ids (Nat.le_refl _)]

/-- Whole-program state: the OS fixture plus the table of process handles
currently held open by the program. -/
structure World where
  os : OS
  handles : List Nat

/-- The generator body over `ids` with the handle table threaded through
every resolver call. -/
def iterGoHandles (os : OS) : List Nat → List Nat → List String × List Nat
  | handles, [] => ([], handles)
  | handles, pid :: rest =>
    match (getProcessNameHandles os handles pid).1 with
    | some name =>
      if name != "" then
        (name :: (iterGoHandles os (getProcessNameHandles os handles pid).2 rest).1,
         (iterGoHandles os (getProcessNameHandles os handles pid).2 rest).2)
      else iterGoHandles os (getProcessNameHandles os handles pid).2 rest
    | none => iterGoHandles os (getProcessNameHandles os handles pid).2 rest

/-- One full invocation of `processNameIterator()` run to exhaustion,
carried out on a world: the enumeration pass, then one resolver call per
identifier.  Returns the yielded names (`none` when the enumeration loop
exhausts its fuel) together with the world after the run — the oracle
untouched, the handle table possibly grown. -/
def runNameSequence (w : World) (fuel : Nat) : Option (List String) × World :=
  match getProcessIDListFuel w.os fuel with
  | none => (none, w)
  | some ids =>
    (some (iterGoHandles w.os w.handles ids).1,
     ⟨w.os, (iterGoHandles w.os w.handles ids).2⟩)

/-- The names yielded do not depend on the handle table the run starts
from. -/
lemma iterGoHandles_fst (os : OS) :
    ∀ (ids handles : List Nat), (iterGoHandles os handles ids).1 = iterGo os ids := by
  intro ids
  induction ids with
  | nil => intro handles; rfl
  | cons pid rest ih =>
    intro handles
    rw [iterGoHandles, iterGo]
    rw [getProcessNameHandles_fst os handles pid]
    cases hres : getProcessName os pid with
    | none => exact ih _
    | some name =>
      by_cases hne : (name != "") = true
      · simp [hne, ih]
      · simp [hne, ih]

/-- A run leaves the oracle part of the world unchanged. -/
lemma runNameSequence_os (w : World) (fuel : Nat) :
    (runNameSequence w fuel).2.os = w.os := by
  rw [runNameSequence]
  cases getProcessIDListFuel w.os fuel <;> rfl

/-- What a run yields is a function of the oracle and the fuel alone. -/
lemma runNameSequence_fst (w : World) (fuel : Nat) :
    (runNameSequence w fuel).1 = (getProcessIDListFuel w.os fuel).map (iterGo w.os) := by
  rw [runNameSequence]
  cases h : getProcessIDListFuel w.os fuel with
  | none => rfl
  | some ids =>
    simp only [Option.map_some']
    rw [iterGoHandles_fst]

/-- C9: restartability.  Running `processNameIterator` a second time from
the world the first run left behind (same oracle, handle table possibly
grown by the first run's leaked handles) yields exactly the same name
sequence: the source keeps no cache between invocations, and the yields do
not depend on the mutated part of the state. -/
theorem processNameIterator_restartable (w : World) (fuel : Nat) :
    (runNameSequence (runNameSequence w fuel).2 fuel).1 = (runNameSequence w fuel).1 := by
  rw [runNameSequence_fst, runNameSequence_fst, runNameSequence_os]

/-- C10: every yielded name is non-empty: an identifier resolving to the
empty string is skipped exactly as a failed resolution is, and therefore
`checkProcessIsRunning("")` answers `false` on every oracle whose
enumeration terminates. -/
theorem processNameIterator_yields_nonempty (os : OS) (ids : List Nat) (fuel : Nat)
    (h : getProcessIDListFuel os fuel = some ids) :
    (∀ name, name ∈ iterGo os ids → name ≠ "") ∧
    (∀ pid rest, getProcessName os pid = some "" →
      iterGo os (pid :: rest) = iterGo os rest) ∧
    (∀ pid rest, getProcessName os pid = none →
      iterGo os (pid :: rest) = iterGo os rest) ∧
    checkProcessIsRunningFuel os "" fuel = some false := by
  have hmem : ∀ l : List Nat, ∀ name, name ∈ iterGo os l → name ≠ "" := by
    intro l
    induction l with
    | nil => intro name hmem; exact absurd hmem (by simp [iterGo])
    | cons pid rest ih =>
      intro name hname
      rw [iterGo] at hname
      revert hname
      cases hres : getProcessName os pid with
      | none => exact ih name
      | some nm =>
        intro hname
        have h' : name ∈ (if (nm != "") = true then nm :: iterGo os rest else iterGo os rest) :=
          hname
        by_cases hne : (nm != "") = true
        · rw [if_pos hne] at h'
          rcases List.mem_cons.mp h' with h1 | h2
          · rw [h1]
            intro hcontr
            rw [hcontr] at hne
            simp at hne
          · exact ih name h2
        · rw [if_neg hne] at h'
          exact ih name h'
  refine ⟨hmem ids, ?_, ?_, ?_⟩
  · intro pid rest hres
    rw [iterGo, hres]
    simp
  · intro pid rest hres
    rw [iterGo, hres]
  · rw [checkProcessIsRunningFuel, h, Option.map_some', checkGo_eq_contains]
    have hnot : ("" : String) ∉ iterGo os ids := fun hcontr => hmem ids "" hcontr rfl
    have : (iterGo os ids).contains "" = false := by
      rw [List.contains_eq_any_beq]
      simp only [List.any_eq_false]
      intro x hx
      have := hmem ids x hx
      simp [beq_eq_false_iff_ne, this.symm]
    rw [this]

/-- Witness for C10: on the example fixture the empty name is never
running. -/
theorem processNameIterator_yields_nonempty_w :
    checkProcessIsRunningFuel osX "" 1 = some false :=
  (processNameIterator_yields_nonempty osX [10, 20, 30] 1 (by rfl)).2.2.2
